import Mathlib

/-
  Verification of the WHERE-clause compiler in qdrant_vsql (src/qdrant_vsql/filtering.py).

  The embedding models the semantic mapper and the Boolean normalizer of the
  compiler.  Parse trees are represented by an abstract syntax faithful to the
  PEG grammar (expression / factor / condition productions); the visitor
  methods, the AND/OR merge logic, the should-flattening and the group
  unwrapping helper are translated function by function from the source.

  Python's `datetime.fromisoformat` is external library code, not part of the
  repository; the pipeline is therefore parameterized by an oracle
  `isoOk : String → Bool` standing for "this string parses as an ISO-8601
  datetime".  Every theorem holds for an arbitrary oracle.
-/

namespace QdrantVSQL

/-- Decoded value literals (results of visit_value / visit_number /
visit_boolean / visit_string / visit_list_value).  A numeric literal with a
fractional part is carried by its source text: the compiler never computes
with floats, it only passes them through to the emitted condition. -/
inductive PyVal where
  | int (n : Int)
  | float (raw : String)
  | bool (b : Bool)
  | str (s : String)
  | list (xs : List PyVal)


/-- `QdrantFilterVisitor._flatten_all`: recursively flatten nested value
lists into one flat list (a non-list value becomes a singleton). -/
def flattenAll : PyVal → List PyVal
  | .list [] => []
  | .list (x :: xs) => flattenAll x ++ flattenAll (.list xs)
  | .int n => [.int n]
  | .float r => [.float r]
  | .bool b => [.bool b]
  | .str s => [.str s]

/-- Bound set passed to models.Range / models.DatetimeRange /
models.ValuesCount (the `range_kwargs` / `count_kwargs` dictionaries). -/
structure QRange where
  gt : Option PyVal
  gte : Option PyVal
  lt : Option PyVal
  lte : Option PyVal


/-- The four payload match variants of the backend model. -/
inductive QMatch where
  | value (v : PyVal)
  | anyOf (vs : List PyVal)
  | exceptOf (vs : List PyVal)
  | text (v : PyVal)


/-- Payload of a models.FieldCondition: exactly one of match / range /
datetime range / values_count is set by the compiler. -/
inductive FieldBody where
  | matchB (m : QMatch)
  | rangeB (r : QRange)
  | dtRangeB (r : QRange)
  | valuesCountB (r : QRange)


/-- Backend condition nodes emitted by the visitor. -/
inductive QCond where
  | field (key : String) (body : FieldBody)
  | isNull (key : String)
  | isEmpty (key : String)
  | hasId (ids : List PyVal)


/-- A node of the compiled output: either a backend condition or a
models.Filter with its three optional buckets (`None` versus a list is
significant, exactly as in the pydantic model). -/
inductive QNode where
  | cond (c : QCond)
  | filt (must should mustNot : Option (List QNode))


/-- Contents of a bucket (`ensure_list` over an optional list). -/
def bList : Option (List QNode) → List QNode
  | none => []
  | some l => l

/-- Python truthiness of a bucket: `None` and `[]` are falsy. -/
def isTruthy : Option (List QNode) → Bool
  | some (_ :: _) => true
  | _ => false

/-- `lst or None`: an empty accumulated bucket becomes absent. -/
def orNone : List QNode → Option (List QNode)
  | [] => none
  | l => some l

/-- A bucket that is truthy and has exactly one entry. -/
def singleOf : Option (List QNode) → Option QNode
  | some [x] => some x
  | _ => none

/-- `_clean_filter_list`: in Python this removes parse junk (strings, None,
nested plain lists) from a bucket.  In this embedding buckets only ever hold
condition or filter nodes, so the function keeps every element. -/
def cleanList (l : List QNode) : List QNode := l

/-- `dedup` in visit_expression removes duplicates by Python object identity
(`id(x)`).  Every node reaching it is freshly constructed from its own parse
subtree, so no two entries are ever the identical object and the function
never drops an element: it is the identity on every reachable input. -/
def dedupById (l : List QNode) : List QNode := l

theorem sizeOf_singleOf (o : Option (List QNode)) (x : QNode)
    (h : singleOf o = some x) : sizeOf x < 1 + sizeOf o := by
  rcases o with _ | l
  · simp [singleOf] at h
  · rcases l with _ | ⟨y, _ | _⟩ <;> simp [singleOf] at h
    subst h
    simp
    omega

/-- `_unwrap_group`: recursively unwrap a Filter with exactly one entry in
exactly one of must/should and no other content.  (The Python function also
digs the node out of parse-tuple plumbing; tuples do not occur here, and a
condition node is returned unchanged.) -/
def unwrapGroup : QNode → QNode
  | .cond c => .cond c
  | .filt m s mn =>
    if h1 : (singleOf m).isSome ∧ isTruthy s = false ∧ isTruthy mn = false then
      unwrapGroup ((singleOf m).get h1.1)
    else if h2 : (singleOf s).isSome ∧ isTruthy m = false ∧ isTruthy mn = false then
      unwrapGroup ((singleOf s).get h2.1)
    else .filt m s mn
termination_by n => sizeOf n
decreasing_by
  · have := sizeOf_singleOf m _ (Option.eq_some_of_isSome h1.1)
    simp only [QNode.filt.sizeOf_spec]
    omega
  · have := sizeOf_singleOf s _ (Option.eq_some_of_isSome h2.1)
    simp only [QNode.filt.sizeOf_spec]
    omega

/-- `val.replace("Z", "+00:00")`: the rewrite applied before the ISO parse
attempt (String.replace replaces every occurrence, as Python str.replace
does). -/
def replaceZ (s : String) : String := s.replace "Z" "+00:00"

/-- The datetime-detection test of handle_range / handle_between: the value
is a string and `datetime.fromisoformat` accepts it after the Z rewrite
(`isoOk` is the oracle for the library parser). -/
def isDtStr (isoOk : String → Bool) : PyVal → Bool
  | .str s => isoOk (replaceZ s)
  | _ => false

/-- handle_equality with the value present: MatchValue wrapped in must, or in
must_not for `!=` / `<>`. -/
def handleEquality (key : String) (v : PyVal) (isNot : Bool) : QNode :=
  let c : QNode := .cond (.field key (.matchB (.value v)))
  if isNot then .filt none none (some [c]) else .filt (some [c]) none none

/-- handle_in with the value present: MatchExcept in must for NOT IN,
MatchAny in must for IN, over the flattened values. -/
def handleIn (key : String) (v : PyVal) (isNot : Bool) : QNode :=
  let cleanValue := flattenAll v
  if isNot then
    .filt (some [.cond (.field key (.matchB (.exceptOf cleanValue)))]) none none
  else
    .filt (some [.cond (.field key (.matchB (.anyOf cleanValue)))]) none none

/-- handle_in including its missing-value check (`val is None` raises
ValueError).  The grammar always supplies a value, so the visitor calls the
unchecked form with the value present; this checked form witnesses that an
empty value list is not an error. -/
def handleInChecked (key : String) (v : Option PyVal) (isNot : Bool) :
    Except String QNode :=
  match v with
  | none => .error ("Missing value for 'IN' comparison on field " ++ key)
  | some v => .ok (handleIn key v isNot)

/-- handle_like with the value present: MatchText in must. -/
def handleLike (key : String) (v : PyVal) : QNode :=
  .filt (some [.cond (.field key (.matchB (.text v)))]) none none

/-- The four single-bound comparison operators dispatched to handle_range. -/
inductive RangeOp where
  | gt | gte | lt | lte

/-- The `range_kwargs` dictionary built at the top of handle_range. -/
def rangeKwargs : RangeOp → PyVal → QRange
  | .gt, v => ⟨some v, none, none, none⟩
  | .gte, v => ⟨none, some v, none, none⟩
  | .lt, v => ⟨none, none, some v, none⟩
  | .lte, v => ⟨none, none, none, some v⟩

/-- handle_range: a string operand is tried as an ISO-8601 datetime (after
the Z rewrite); on success a DatetimeRange is emitted, otherwise a plain
Range carrying the original value.  Always wrapped in must. -/
def handleRange (isoOk : String → Bool) (key : String) (op : RangeOp)
    (v : PyVal) : QNode :=
  let kw := rangeKwargs op v
  match v with
  | .str s =>
    if isoOk (replaceZ s) then
      .filt (some [.cond (.field key (.dtRangeB kw))]) none none
    else
      .filt (some [.cond (.field key (.rangeB kw))]) none none
  | _ => .filt (some [.cond (.field key (.rangeB kw))]) none none

/-- handle_between: `gte=v1, lte=v2`; DatetimeRange only when both operands
are strings and both parse (the second parse is attempted only if the first
succeeded, hence the short-circuit conjunction); wrapped in must_not for
NOT BETWEEN, else in must. -/
def handleBetween (isoOk : String → Bool) (key : String) (v1 v2 : PyVal)
    (isNot : Bool) : QNode :=
  let kw : QRange := ⟨none, some v1, none, some v2⟩
  let wrap := fun (c : QNode) =>
    if isNot then QNode.filt none none (some [c])
    else QNode.filt (some [c]) none none
  match v1, v2 with
  | .str s1, .str s2 =>
    if isoOk (replaceZ s1) && isoOk (replaceZ s2) then
      wrap (.cond (.field key (.dtRangeB kw)))
    else
      wrap (.cond (.field key (.rangeB kw)))
  | _, _ => wrap (.cond (.field key (.rangeB kw)))

/-- The two logical connectives of the expression production. -/
inductive LogOp where
  | and | or

/-- Operators accepted by the has_id_condition production. -/
inductive IdOp where
  | eq | neq | inOp | notIn

/-- values_count_op alternatives; the operand is the visited number. -/
inductive CountOp where
  | gte (n : PyVal)
  | lte (n : PyVal)
  | gt (n : PyVal)
  | lt (n : PyVal)
  | eq (n : PyVal)
  | between (n1 n2 : PyVal)

/-- comparison_op alternatives, with their visited operands. -/
inductive CmpOp where
  | eq (v : PyVal)
  | neq (v : PyVal)
  | inOp (v : PyVal)
  | notIn (v : PyVal)
  | like (v : PyVal)
  | between (v1 v2 : PyVal)
  | notBetween (v1 v2 : PyVal)
  | rcmp (op : RangeOp) (v : PyVal)

/-- The condition production: the six alternatives of the grammar rule. -/
inductive Cond where
  | isNull (key : String) (neg : Bool)
  | isEmpty (key : String)
  | isEmptyArray (key : String)
  | hasId (op : IdOp) (v : PyVal)
  | valuesCount (key : String) (op : CountOp)
  | comp (key : String) (op : CmpOp)

/-- The `count_kwargs` dictionary of visit_values_count_condition
(`=` maps to gte = lte = n). -/
def countKwargs : CountOp → QRange
  | .gt n => ⟨some n, none, none, none⟩
  | .gte n => ⟨none, some n, none, none⟩
  | .lt n => ⟨none, none, some n, none⟩
  | .lte n => ⟨none, none, none, some n⟩
  | .eq n => ⟨none, some n, none, some n⟩
  | .between n1 n2 => ⟨none, some n1, none, some n2⟩

/-- visit_has_id_condition: `=` keeps a single-element id list (or the list
itself when the operand is a parenthesized list), `IN` flattens the operand;
`!=`, `<>` and `NOT IN` wrap the HasId condition in must_not. -/
def visitHasId (op : IdOp) (v : PyVal) : QNode :=
  match op with
  | .inOp => .filt (some [.cond (.hasId (flattenAll v))]) none none
  | .notIn => .filt none none (some [.cond (.hasId (flattenAll v))])
  | .eq =>
    let ids := match v with | .list xs => xs | v => [v]
    .filt (some [.cond (.hasId ids)]) none none
  | .neq =>
    let ids := match v with | .list xs => xs | v => [v]
    .filt none none (some [.cond (.hasId ids)])

/-- The condition-level visitor: each alternative of the condition production
emits a Filter wrapping a single backend condition, in must or must_not. -/
def visitCond (isoOk : String → Bool) : Cond → QNode
  | .isNull key neg =>
    let c : QNode := .cond (.isNull key)
    if neg then .filt none none (some [c]) else .filt (some [c]) none none
  | .isEmpty key => .filt (some [.cond (.isEmpty key)]) none none
  | .isEmptyArray key => .filt (some [.cond (.isEmpty key)]) none none
  | .hasId op v => visitHasId op v
  | .valuesCount key op =>
    .filt (some [.cond (.field key (.valuesCountB (countKwargs op)))]) none none
  | .comp key op =>
    match op with
    | .eq v => handleEquality key v false
    | .neq v => handleEquality key v true
    | .inOp v => handleIn key v false
    | .notIn v => handleIn key v true
    | .like v => handleLike key v
    | .between v1 v2 => handleBetween isoOk key v1 v2 false
    | .notBetween v1 v2 => handleBetween isoOk key v1 v2 true
    | .rcmp rop v => handleRange isoOk key rop v

mutual
/-- A factor of the expression production: an optional NOT prefix over a
condition or a parenthesized expression. -/
inductive Factor where
  | mk (neg : Bool) (body : FBody)
/-- The body of a factor. -/
inductive FBody where
  | condB (c : Cond)
  | group (e : Expr)
/-- An expression: a first factor followed by (connective, factor) pairs. -/
inductive Expr where
  | mk (first : Factor) (rest : List (LogOp × Factor))
end

/-- collect_conditions of the AND merge: a Filter operand spills its must and
must_not buckets; if the operand carries a should bucket it is additionally
kept whole inside must (pure disjunction or mixed); a bare condition is
appended to must. -/
def collectConditions (f : QNode) : List QNode × List QNode :=
  match f with
  | .filt m s mn =>
    let tm := bList m
    let tmn := bList mn
    let tm :=
      if isTruthy s && !isTruthy m && !isTruthy mn then tm ++ [QNode.filt m s mn]
      else if isTruthy s && (isTruthy m || isTruthy mn) then
        tm ++ [QNode.filt m s mn]
      else tm
    (tm, tmn)
  | .cond c => ([.cond c], [])

/-- flatten_should of the OR merge: the operand is first unwrapped; a pure
disjunctive Filter spills its should entries, anything else is kept whole. -/
def flattenShould (f : QNode) : List QNode :=
  match unwrapGroup f with
  | .filt m s mn =>
    if isTruthy s && !isTruthy m && !isTruthy mn then bList s
    else [QNode.filt m s mn]
  | .cond c => [.cond c]

/-- merge_filters: AND accumulates must/must_not from both operands; OR
funnels both operands into should.  Empty accumulated buckets become
absent. -/
def mergeFilters (op : LogOp) (l r : QNode) : QNode :=
  match op with
  | .and =>
    let lc := collectConditions l
    let rc := collectConditions r
    let mustC := dedupById (cleanList (lc.1 ++ rc.1))
    let mustNotC := dedupById (cleanList (lc.2 ++ rc.2))
    .filt (orNone mustC) none (orNone mustNotC)
  | .or =>
    let shouldC := dedupById (cleanList (flattenShould l ++ flattenShould r))
    .filt none (orNone shouldC) none

/-- Lines 193-204 of visit_expression: a truthy bucket is re-cleaned and an
emptied bucket becomes absent; a falsy bucket is left untouched. -/
def normBucket (o : Option (List QNode)) : Option (List QNode) :=
  match o with
  | some (x :: xs) =>
    match cleanList (x :: xs) with
    | [] => none
    | l => some l
  | o => o

/-- The tail of visit_expression: a non-Filter result is wrapped into a
Filter's must (line 192), a Filter result has its buckets normalized. -/
def finalizeExpr (r : QNode) : QNode :=
  match r with
  | .cond c => .filt (some (cleanList [.cond c])) none none
  | .filt m s mn => .filt (normBucket m) (normBucket s) (normBucket mn)

mutual
/-- visit_expression: fold the (connective, factor) pairs left-to-right with
merge_filters, then finalize. -/
def visitExpr (isoOk : String → Bool) : Expr → QNode
  | .mk first rest => finalizeExpr (visitRest isoOk rest (visitFactor isoOk first))

/-- The reduction loop of visit_expression
(`result = merge(op, result, visit(factor))`). -/
def visitRest (isoOk : String → Bool) : List (LogOp × Factor) → QNode → QNode
  | [], acc => acc
  | (op, f) :: rest, acc =>
    visitRest isoOk rest (mergeFilters op acc (visitFactor isoOk f))

/-- visit_factor: the visited body is unwrapped; a NOT prefix either
eliminates a double negation (pure must_not term) or wraps the term in
must_not. -/
def visitFactor (isoOk : String → Bool) : Factor → QNode
  | .mk neg body =>
    let term := unwrapGroup (visitBody isoOk body)
    if neg then
      match term with
      | .filt m s mn =>
        if isTruthy mn && !isTruthy m && !isTruthy s then .filt mn none none
        else .filt none none (some [QNode.filt m s mn])
      | .cond c => .filt none none (some [.cond c])
    else term

/-- The (condition / parenthesized expression) choice inside a factor. -/
def visitBody (isoOk : String → Bool) : FBody → QNode
  | .condB c => visitCond isoOk c
  | .group e => visitExpr isoOk e
end

/-- where2filter minus the parse step: the visitor result is returned, with
the non-Filter fallback of lines 640-644 (a bare condition is wrapped into
must; the empty case cannot arise since conditions are truthy). -/
def whereToFilter (isoOk : String → Bool) (e : Expr) : QNode :=
  match visitExpr isoOk e with
  | .cond c => .filt (some [.cond c]) none none
  | .filt m s mn => .filt m s mn

/-- A factor holding a bare condition. -/
def plainF (c : Cond) : Factor := .mk false (.condB c)

/-- A factor holding a parenthesized expression. -/
def groupF (e : Expr) : Factor := .mk false (.group e)

/-- `NOT ( f )`: the only way the grammar can negate an arbitrary factor. -/
def notF (f : Factor) : Factor := .mk true (.group (.mk f []))

/-- A one-factor expression. -/
def exprOf (f : Factor) : Expr := .mk f []

/-- Whether a node is a models.Filter (as opposed to a bare condition). -/
def isFilt : QNode → Bool
  | .filt _ _ _ => true
  | .cond _ => false

/-- A term that is a Filter with only must_not (the shape negated by the
double-negation elimination of visit_factor). -/
def isPureMustNot : QNode → Bool
  | .filt m s mn => isTruthy mn && !isTruthy m && !isTruthy s
  | .cond _ => false

/-- A bucket that is not the empty list (absent and non-empty are fine). -/
def okBucket : Option (List QNode) → Bool
  | some [] => false
  | _ => true

theorem sizeOf_bList (o : Option (List QNode)) : sizeOf (bList o) ≤ sizeOf o := by
  rcases o with _ | l <;> simp [bList]

mutual
/-- Structural well-formedness maintained by the compiler: every Filter node
of the tree has no bucket equal to an empty list, has at least one non-empty
bucket, and all bucket entries are again well-formed. -/
def nodeOK : QNode → Bool
  | .cond _ => true
  | .filt m s mn =>
    okBucket m && okBucket s && okBucket mn &&
    (isTruthy m || isTruthy s || isTruthy mn) &&
    nodesOK (bList m) && nodesOK (bList s) && nodesOK (bList mn)
  termination_by n => sizeOf n
  decreasing_by
    all_goals simp only [QNode.filt.sizeOf_spec]
    · have := sizeOf_bList m; omega
    · have := sizeOf_bList s; omega
    · have := sizeOf_bList mn; omega

/-- All nodes of a list are well-formed. -/
def nodesOK : List QNode → Bool
  | [] => true
  | x :: xs => nodeOK x && nodesOK xs
  termination_by l => sizeOf l
end

mutual
/-- The invariant stated by the spec: in the whole result tree no bucket is
an empty list — every bucket is either absent or non-empty. -/
def noEmptyBuckets : QNode → Bool
  | .cond _ => true
  | .filt m s mn =>
    okBucket m && okBucket s && okBucket mn &&
    noEmptyBucketsList (bList m) && noEmptyBucketsList (bList s) &&
    noEmptyBucketsList (bList mn)
  termination_by n => sizeOf n
  decreasing_by
    all_goals simp only [QNode.filt.sizeOf_spec]
    · have := sizeOf_bList m; omega
    · have := sizeOf_bList s; omega
    · have := sizeOf_bList mn; omega

/-- noEmptyBuckets over a list of nodes. -/
def noEmptyBucketsList : List QNode → Bool
  | [] => true
  | x :: xs => noEmptyBuckets x && noEmptyBucketsList xs
  termination_by l => sizeOf l
end

mutual
/-- Modelled from the spec: the backend contract for filter semantics (§3) —
a record matches a Filter iff every must entry matches, every must_not entry
does not match, and, when should is non-empty, at least one should entry
matches.  `σ` assigns a truth value to each atomic condition; the evaluator
itself is outside the repository. -/
def evalNode (σ : QCond → Bool) : QNode → Bool
  | .cond c => σ c
  | .filt m s mn =>
    evalAllOf σ (bList m) && evalNoneOf σ (bList mn) &&
    (!isTruthy s || evalAnyOf σ (bList s))
  termination_by n => sizeOf n
  decreasing_by
    all_goals simp only [QNode.filt.sizeOf_spec]
    · have := sizeOf_bList m; omega
    · have := sizeOf_bList mn; omega
    · have := sizeOf_bList s; omega

/-- Every node of the list matches. -/
def evalAllOf (σ : QCond → Bool) : List QNode → Bool
  | [] => true
  | x :: xs => evalNode σ x && evalAllOf σ xs
  termination_by l => sizeOf l

/-- No node of the list matches. -/
def evalNoneOf (σ : QCond → Bool) : List QNode → Bool
  | [] => true
  | x :: xs => !evalNode σ x && evalNoneOf σ xs
  termination_by l => sizeOf l

/-- At least one node of the list matches. -/
def evalAnyOf (σ : QCond → Bool) : List QNode → Bool
  | [] => false
  | x :: xs => evalNode σ x || evalAnyOf σ xs
  termination_by l => sizeOf l
end

/-- The value of visit_cond projected to "a single condition in must": the
payload when the condition compiles to a pure-must singleton Filter, `none`
when it compiles to a must_not (negated) shape. -/
def condAtom (isoOk : String → Bool) (c : Cond) : Option QCond :=
  match visitCond isoOk c with
  | .filt (some [.cond q]) none none => some q
  | _ => none

/- ------------------------------------------------------------------ -/
/- General lemmas about the embedded compiler.                         -/
/- ------------------------------------------------------------------ -/

@[simp] theorem cleanList_id (l : List QNode) : cleanList l = l := rfl

@[simp] theorem dedupById_id (l : List QNode) : dedupById l = l := rfl

@[simp] theorem bList_none : bList none = [] := rfl

@[simp] theorem bList_some (l : List QNode) : bList (some l) = l := rfl

@[simp] theorem okBucket_none : okBucket none = true := rfl

@[simp] theorem okBucket_orNone (l : List QNode) : okBucket (orNone l) = true := by
  cases l <;> rfl

@[simp] theorem isTruthy_none : isTruthy none = false := rfl

theorem isTruthy_orNone (l : List QNode) : isTruthy (orNone l) = !l.isEmpty := by
  cases l <;> rfl

theorem orNone_ne_nil (l : List QNode) (h : l ≠ []) : orNone l = some l := by
  cases l with
  | nil => exact absurd rfl h
  | cons x xs => rfl

theorem isTruthy_iff (o : Option (List QNode)) :
    isTruthy o = true ↔ ∃ x xs, o = some (x :: xs) := by
  rcases o with _ | (_ | ⟨x, xs⟩) <;> simp [isTruthy]

@[simp] theorem singleOf_none : singleOf none = none := rfl

theorem singleOf_eq_some (o : Option (List QNode)) (x : QNode)
    (h : singleOf o = some x) : o = some [x] := by
  rcases o with _ | (_ | ⟨y, _ | _⟩) <;> simp [singleOf] at h <;> simp [h]

theorem singleOf_orNone_of_len (l : List QNode) (h : 2 ≤ l.length) :
    singleOf (orNone l) = none := by
  rcases l with _ | ⟨x, _ | ⟨y, ys⟩⟩ <;> simp at h <;> rfl

theorem normBucket_ok (o : Option (List QNode)) (h : okBucket o = true) :
    normBucket o = o := by
  rcases o with _ | (_ | ⟨x, xs⟩)
  · rfl
  · simp [okBucket] at h
  · rfl

@[simp] theorem normBucket_none : normBucket none = none := rfl

@[simp] theorem normBucket_orNone (l : List QNode) :
    normBucket (orNone l) = orNone l := by
  cases l <;> rfl

theorem nodesOK_append (l1 l2 : List QNode) :
    nodesOK (l1 ++ l2) = (nodesOK l1 && nodesOK l2) := by
  induction l1 with
  | nil => simp [nodesOK]
  | cons x xs ih => simp [nodesOK, ih, Bool.and_assoc]

theorem nodesOK_iff (l : List QNode) :
    nodesOK l = true ↔ ∀ x ∈ l, nodeOK x = true := by
  induction l with
  | nil => simp [nodesOK]
  | cons x xs ih => simp [nodesOK, ih]

@[simp] theorem unwrapGroup_cond (c : QCond) :
    unwrapGroup (.cond c) = .cond c := by
  simp [unwrapGroup]

theorem unwrapGroup_filt_self (m s mn : Option (List QNode))
    (h1 : ¬((singleOf m).isSome ∧ isTruthy s = false ∧ isTruthy mn = false))
    (h2 : ¬((singleOf s).isSome ∧ isTruthy m = false ∧ isTruthy mn = false)) :
    unwrapGroup (.filt m s mn) = .filt m s mn := by
  rw [unwrapGroup]
  rw [dif_neg h1, dif_neg h2]

theorem unwrapGroup_must_single (x : QNode) (s mn : Option (List QNode))
    (hs : isTruthy s = false) (hmn : isTruthy mn = false) :
    unwrapGroup (.filt (some [x]) s mn) = unwrapGroup x := by
  rw [unwrapGroup]
  rw [dif_pos ⟨by simp [singleOf], hs, hmn⟩]
  simp [singleOf]

theorem unwrapGroup_should_single (y : QNode) (m mn : Option (List QNode))
    (hm : isTruthy m = false) (hmn : isTruthy mn = false) :
    unwrapGroup (.filt m (some [y]) mn) = unwrapGroup y := by
  rw [unwrapGroup]
  have h1 : ¬((singleOf m).isSome ∧ isTruthy (some [y]) = false ∧
      isTruthy mn = false) := by
    rintro ⟨-, hsy, -⟩
    simp [isTruthy] at hsy
  rw [dif_neg h1, dif_pos ⟨by simp [singleOf], hm, hmn⟩]
  simp [singleOf]

theorem bList_orNone (l : List QNode) : bList (orNone l) = l := by
  cases l <;> rfl

theorem bList_ne_nil_of_truthy (o : Option (List QNode))
    (h : isTruthy o = true) : bList o ≠ [] := by
  rcases (isTruthy_iff o).1 h with ⟨x, xs, rfl⟩
  simp

/-- Every alternative of the condition production compiles to a Filter
holding exactly one backend condition, either in must or in must_not. -/
theorem visitCond_shape (isoOk : String → Bool) (c : Cond) :
    (∃ q, visitCond isoOk c = .filt (some [.cond q]) none none) ∨
    (∃ q, visitCond isoOk c = .filt none none (some [.cond q])) := by
  cases c with
  | isNull key neg =>
    cases neg
    · exact .inl ⟨_, rfl⟩
    · exact .inr ⟨_, rfl⟩
  | isEmpty key => exact .inl ⟨_, rfl⟩
  | isEmptyArray key => exact .inl ⟨_, rfl⟩
  | hasId op v =>
    cases op with
    | eq => exact .inl ⟨_, rfl⟩
    | neq => exact .inr ⟨_, rfl⟩
    | inOp => exact .inl ⟨_, rfl⟩
    | notIn => exact .inr ⟨_, rfl⟩
  | valuesCount key op => exact .inl ⟨_, rfl⟩
  | comp key op =>
    cases op with
    | eq v => exact .inl ⟨_, rfl⟩
    | neq v => exact .inr ⟨_, rfl⟩
    | inOp v => exact .inl ⟨_, rfl⟩
    | notIn v => exact .inl ⟨_, rfl⟩
    | like v => exact .inl ⟨_, rfl⟩
    | between v1 v2 =>
      left
      show ∃ q, handleBetween isoOk key v1 v2 false = _
      cases v1 <;> cases v2 <;> simp only [handleBetween] <;>
        first
          | exact ⟨_, rfl⟩
          | (split <;> exact ⟨_, rfl⟩)
    | notBetween v1 v2 =>
      right
      show ∃ q, handleBetween isoOk key v1 v2 true = _
      cases v1 <;> cases v2 <;> simp only [handleBetween] <;>
        first
          | exact ⟨_, rfl⟩
          | (split <;> exact ⟨_, rfl⟩)
    | rcmp rop v =>
      left
      show ∃ q, handleRange isoOk key rop v = _
      cases v <;> simp only [handleRange] <;>
        first
          | exact ⟨_, rfl⟩
          | (split <;> exact ⟨_, rfl⟩)

theorem visitCond_ok (isoOk : String → Bool) (c : Cond) :
    nodeOK (visitCond isoOk c) = true := by
  rcases visitCond_shape isoOk c with ⟨q, hq⟩ | ⟨q, hq⟩ <;> rw [hq] <;>
    simp [nodeOK, nodesOK, okBucket, isTruthy]

theorem nodeOK_filt_elim (m s mn : Option (List QNode))
    (h : nodeOK (.filt m s mn) = true) :
    okBucket m = true ∧ okBucket s = true ∧ okBucket mn = true ∧
    (isTruthy m || isTruthy s || isTruthy mn) = true ∧
    nodesOK (bList m) = true ∧ nodesOK (bList s) = true ∧
    nodesOK (bList mn) = true := by
  rw [nodeOK] at h
  simp only [Bool.and_eq_true] at h
  tauto

theorem nodeOK_unwrapGroup (n : QNode) (h : nodeOK n = true) :
    nodeOK (unwrapGroup n) = true := by
  induction n using unwrapGroup.induct with
  | case1 c => simpa using h
  | case2 m s mn h1 ih =>
    obtain ⟨-, -, -, -, hbm, -, -⟩ := nodeOK_filt_elim m s mn h
    rw [unwrapGroup, dif_pos h1]
    apply ih
    have hx := singleOf_eq_some m _ (Option.eq_some_of_isSome h1.1)
    rw [hx] at hbm
    simp [nodesOK] at hbm
    exact hbm
  | case3 m s mn h1 h2 ih =>
    obtain ⟨-, -, -, -, -, hbs, -⟩ := nodeOK_filt_elim m s mn h
    rw [unwrapGroup, dif_neg h1, dif_pos h2]
    apply ih
    have hx := singleOf_eq_some s _ (Option.eq_some_of_isSome h2.1)
    rw [hx] at hbs
    simp [nodesOK] at hbs
    exact hbs
  | case4 m s mn h1 h2 =>
    rw [unwrapGroup, dif_neg h1, dif_neg h2]
    exact h

theorem nodeOK_filt_intro (m s mn : Option (List QNode))
    (h1 : okBucket m = true) (h2 : okBucket s = true) (h3 : okBucket mn = true)
    (h4 : (isTruthy m || isTruthy s || isTruthy mn) = true)
    (h5 : nodesOK (bList m) = true) (h6 : nodesOK (bList s) = true)
    (h7 : nodesOK (bList mn) = true) : nodeOK (.filt m s mn) = true := by
  rw [nodeOK]
  simp [h1, h2, h3, h4, h5, h6, h7]

@[simp] theorem nodeOK_cond (c : QCond) : nodeOK (.cond c) = true := by
  rw [nodeOK]

/-- collect_conditions both append branches reduced to one test: the whole
operand Filter is kept inside must exactly when it carries a should
bucket. -/
theorem collectConditions_filt (m s mn : Option (List QNode)) :
    collectConditions (.filt m s mn) =
      (bList m ++ (if isTruthy s then [QNode.filt m s mn] else []), bList mn) := by
  cases hs : isTruthy s <;> cases hm : isTruthy m <;> cases hmn : isTruthy mn <;>
    simp [collectConditions, hs, hm, hmn]

@[simp] theorem collectConditions_cond (c : QCond) :
    collectConditions (.cond c) = ([.cond c], []) := rfl

theorem collectConditions_elems_ok (f : QNode) (h : nodeOK f = true) :
    (∀ x ∈ (collectConditions f).1, nodeOK x = true) ∧
    (∀ x ∈ (collectConditions f).2, nodeOK x = true) := by
  cases f with
  | cond c =>
    refine ⟨?_, ?_⟩ <;> intro x hx <;> simp at hx
    rw [hx]
    simp
  | filt m s mn =>
    obtain ⟨-, -, -, -, hbm, hbs, hbmn⟩ := nodeOK_filt_elim m s mn h
    rw [collectConditions_filt]
    refine ⟨?_, ?_⟩ <;> intro x hx
    · simp only [List.mem_append] at hx
      rcases hx with hx | hx
      · exact (nodesOK_iff _).1 hbm x hx
      · rcases hs : isTruthy s <;> rw [hs] at hx <;> simp at hx
        rw [hx]
        exact h
    · exact (nodesOK_iff _).1 hbmn x hx

theorem collectConditions_ne_nil (f : QNode) (h : nodeOK f = true) :
    (collectConditions f).1 ≠ [] ∨ (collectConditions f).2 ≠ [] := by
  cases f with
  | cond c => simp
  | filt m s mn =>
    obtain ⟨-, -, -, ht, -, -, -⟩ := nodeOK_filt_elim m s mn h
    rw [collectConditions_filt]
    simp only [Bool.or_eq_true] at ht
    rcases ht with (hm | hs) | hmn
    · refine .inl fun hnil => ?_
      exact bList_ne_nil_of_truthy m hm (List.append_eq_nil.1 hnil).1
    · refine .inl fun hnil => ?_
      rw [if_pos hs] at hnil
      simp at hnil
    · exact .inr (bList_ne_nil_of_truthy mn hmn)

theorem flattenShould_of_unwrap_filt (f : QNode) (m s mn : Option (List QNode))
    (hq : unwrapGroup f = .filt m s mn) :
    flattenShould f =
      if isTruthy s && !isTruthy m && !isTruthy mn then bList s
      else [QNode.filt m s mn] := by
  unfold flattenShould
  rw [hq]

theorem flattenShould_of_unwrap_cond (f : QNode) (c : QCond)
    (hq : unwrapGroup f = .cond c) : flattenShould f = [.cond c] := by
  unfold flattenShould
  rw [hq]

theorem flattenShould_ne_nil (f : QNode) : flattenShould f ≠ [] := by
  cases hu : unwrapGroup f with
  | cond c => simp [flattenShould_of_unwrap_cond f c hu]
  | filt m s mn =>
    rw [flattenShould_of_unwrap_filt f m s mn hu]
    by_cases hc : (isTruthy s && !isTruthy m && !isTruthy mn) = true
    · rw [if_pos hc]
      have hs : isTruthy s = true := by
        simp only [Bool.and_eq_true] at hc
        exact hc.1.1
      exact bList_ne_nil_of_truthy s hs
    · rw [if_neg hc]
      simp

theorem flattenShould_elems_ok (f : QNode) (h : nodeOK f = true) :
    ∀ x ∈ flattenShould f, nodeOK x = true := by
  have hu := nodeOK_unwrapGroup f h
  cases hq : unwrapGroup f with
  | cond c =>
    rw [hq] at hu
    rw [flattenShould_of_unwrap_cond f c hq]
    intro x hx
    simp at hx
    rw [hx]
    exact hu
  | filt m s mn =>
    rw [hq] at hu
    obtain ⟨-, -, -, -, -, hbs, -⟩ := nodeOK_filt_elim _ _ _ hu
    rw [flattenShould_of_unwrap_filt f m s mn hq]
    intro x hx
    by_cases hc : (isTruthy s && !isTruthy m && !isTruthy mn) = true
    · rw [if_pos hc] at hx
      exact (nodesOK_iff _).1 hbs x hx
    · rw [if_neg hc] at hx
      simp at hx
      rw [hx]
      exact hu

theorem mergeFilters_ok (op : LogOp) (l r : QNode)
    (hl : nodeOK l = true) (hr : nodeOK r = true) :
    nodeOK (mergeFilters op l r) = true := by
  cases op with
  | and =>
    simp only [mergeFilters, dedupById_id, cleanList_id]
    apply nodeOK_filt_intro
    · exact okBucket_orNone _
    · rfl
    · exact okBucket_orNone _
    · rw [isTruthy_orNone, isTruthy_orNone]
      simp only [isTruthy_none, Bool.or_false, Bool.false_or]
      rcases collectConditions_ne_nil l hl with hc | hc <;>
        simp [List.isEmpty_iff, List.append_eq_nil] <;> tauto
    · rw [bList_orNone]
      rw [nodesOK_iff]
      intro x hx
      rcases List.mem_append.1 hx with hx | hx
      · exact (collectConditions_elems_ok l hl).1 x hx
      · exact (collectConditions_elems_ok r hr).1 x hx
    · simp [nodesOK]
    · rw [bList_orNone]
      rw [nodesOK_iff]
      intro x hx
      rcases List.mem_append.1 hx with hx | hx
      · exact (collectConditions_elems_ok l hl).2 x hx
      · exact (collectConditions_elems_ok r hr).2 x hx
  | or =>
    simp only [mergeFilters, dedupById_id, cleanList_id]
    apply nodeOK_filt_intro
    · rfl
    · exact okBucket_orNone _
    · rfl
    · rw [isTruthy_orNone]
      simp [List.isEmpty_iff, List.append_eq_nil, flattenShould_ne_nil l]
    · simp [nodesOK]
    · rw [bList_orNone]
      rw [nodesOK_iff]
      intro x hx
      rcases List.mem_append.1 hx with hx | hx
      · exact flattenShould_elems_ok l hl x hx
      · exact flattenShould_elems_ok r hr x hx
    · simp [nodesOK]

theorem finalizeExpr_eq_of_ok (m s mn : Option (List QNode))
    (h : nodeOK (.filt m s mn) = true) :
    finalizeExpr (.filt m s mn) = .filt m s mn := by
  obtain ⟨h1, h2, h3, -, -, -, -⟩ := nodeOK_filt_elim m s mn h
  simp [finalizeExpr, normBucket_ok _ h1, normBucket_ok _ h2, normBucket_ok _ h3]

theorem finalizeExpr_ok (r : QNode) (h : nodeOK r = true) :
    nodeOK (finalizeExpr r) = true := by
  cases r with
  | cond c =>
    simp only [finalizeExpr, cleanList_id]
    apply nodeOK_filt_intro <;> simp [isTruthy, nodesOK, okBucket]
  | filt m s mn =>
    rw [finalizeExpr_eq_of_ok m s mn h]
    exact h

theorem isFilt_finalizeExpr (r : QNode) : isFilt (finalizeExpr r) = true := by
  cases r with
  | cond c => rfl
  | filt m s mn => rfl

theorem visitExpr_def (isoOk : String → Bool) (f : Factor)
    (rest : List (LogOp × Factor)) :
    visitExpr isoOk (.mk f rest) =
      finalizeExpr (visitRest isoOk rest (visitFactor isoOk f)) := by
  rw [visitExpr]

theorem visitRest_nil (isoOk : String → Bool) (acc : QNode) :
    visitRest isoOk [] acc = acc := by
  rw [visitRest]

theorem visitRest_cons (isoOk : String → Bool) (op : LogOp) (f : Factor)
    (rest : List (LogOp × Factor)) (acc : QNode) :
    visitRest isoOk ((op, f) :: rest) acc =
      visitRest isoOk rest (mergeFilters op acc (visitFactor isoOk f)) := by
  rw [visitRest]

theorem visitFactor_false (isoOk : String → Bool) (body : FBody) :
    visitFactor isoOk (.mk false body) = unwrapGroup (visitBody isoOk body) := by
  simp [visitFactor]

theorem visitFactor_true (isoOk : String → Bool) (body : FBody) :
    visitFactor isoOk (.mk true body) =
      (match unwrapGroup (visitBody isoOk body) with
       | .filt m s mn =>
         if isTruthy mn && !isTruthy m && !isTruthy s then .filt mn none none
         else .filt none none (some [QNode.filt m s mn])
       | .cond c => .filt none none (some [QNode.cond c])) := by
  simp [visitFactor]

theorem visitBody_condB (isoOk : String → Bool) (c : Cond) :
    visitBody isoOk (.condB c) = visitCond isoOk c := by
  rw [visitBody]

theorem visitBody_group (isoOk : String → Bool) (e : Expr) :
    visitBody isoOk (.group e) = visitExpr isoOk e := by
  rw [visitBody]

mutual
/-- Every compiled expression is structurally well-formed. -/
theorem visitExpr_ok (isoOk : String → Bool) (e : Expr) :
    nodeOK (visitExpr isoOk e) = true := by
  cases e with
  | mk first rest =>
    rw [visitExpr_def]
    exact finalizeExpr_ok _
      (visitRest_ok isoOk rest _ (visitFactor_ok isoOk first))
  termination_by sizeOf e

/-- The merge loop preserves structural well-formedness. -/
theorem visitRest_ok (isoOk : String → Bool) (l : List (LogOp × Factor))
    (acc : QNode) (hacc : nodeOK acc = true) :
    nodeOK (visitRest isoOk l acc) = true := by
  cases l with
  | nil =>
    rw [visitRest_nil]
    exact hacc
  | cons p rest =>
    obtain ⟨op, f⟩ := p
    rw [visitRest_cons]
    exact visitRest_ok isoOk rest _
      (mergeFilters_ok op acc _ hacc (visitFactor_ok isoOk f))
  termination_by sizeOf l

/-- Every visited factor is structurally well-formed. -/
theorem visitFactor_ok (isoOk : String → Bool) (f : Factor) :
    nodeOK (visitFactor isoOk f) = true := by
  cases f with
  | mk neg body =>
    have hterm := nodeOK_unwrapGroup _ (visitBody_ok isoOk body)
    cases neg
    · rw [visitFactor_false]
      exact hterm
    · rw [visitFactor_true]
      cases hu : unwrapGroup (visitBody isoOk body) with
      | cond c =>
        apply nodeOK_filt_intro <;> simp [isTruthy, okBucket, nodesOK]
      | filt m s mn =>
        rw [hu] at hterm
        obtain ⟨h1, h2, h3, -, hb1, hb2, hb3⟩ := nodeOK_filt_elim m s mn hterm
        simp only []
        by_cases hc : (isTruthy mn && !isTruthy m && !isTruthy s) = true
        · rw [if_pos hc]
          have hmn : isTruthy mn = true := by
            simp only [Bool.and_eq_true] at hc
            exact hc.1.1
          apply nodeOK_filt_intro
          · exact h3
          · rfl
          · rfl
          · simp [hmn]
          · exact hb3
          · simp [nodesOK]
          · simp [nodesOK]
        · rw [if_neg hc]
          apply nodeOK_filt_intro
          · rfl
          · rfl
          · rfl
          · simp [isTruthy]
          · simp [nodesOK]
          · simp [nodesOK]
          · simp [nodesOK, hterm]
  termination_by sizeOf f

/-- Every visited factor body is structurally well-formed. -/
theorem visitBody_ok (isoOk : String → Bool) (b : FBody) :
    nodeOK (visitBody isoOk b) = true := by
  cases b with
  | condB c =>
    rw [visitBody_condB]
    exact visitCond_ok isoOk c
  | group e =>
    rw [visitBody_group]
    exact visitExpr_ok isoOk e
  termination_by sizeOf b
end

theorem isFilt_visitExpr (isoOk : String → Bool) (e : Expr) :
    isFilt (visitExpr isoOk e) = true := by
  cases e with
  | mk f rest =>
    rw [visitExpr_def]
    exact isFilt_finalizeExpr _

theorem whereToFilter_eq_visitExpr (isoOk : String → Bool) (e : Expr) :
    whereToFilter isoOk e = visitExpr isoOk e := by
  have hf := isFilt_visitExpr isoOk e
  unfold whereToFilter
  cases hv : visitExpr isoOk e with
  | cond c =>
    rw [hv] at hf
    simp [isFilt] at hf
  | filt m s mn => rfl

theorem sizeOf_mem_bucket (x : QNode) (o : Option (List QNode))
    (h : x ∈ bList o) : sizeOf x < 1 + sizeOf o := by
  rcases o with _ | l
  · simp [bList] at h
  · rw [bList_some] at h
    have := List.sizeOf_lt_of_mem h
    simp only [Option.some.sizeOf_spec]
    omega

/-- Structural well-formedness implies the spec's bucket invariant. -/
theorem noEmptyBuckets_of_nodeOK (n : QNode) (h : nodeOK n = true) :
    noEmptyBuckets n = true := by
  have main : ∀ (k : Nat) (n : QNode), sizeOf n ≤ k → nodeOK n = true →
      noEmptyBuckets n = true := by
    intro k
    induction k using Nat.strong_induction_on with
    | _ k ih =>
      intro n hk h
      cases n with
      | cond c => rw [noEmptyBuckets]
      | filt m s mn =>
        obtain ⟨h1, h2, h3, -, hb1, hb2, hb3⟩ := nodeOK_filt_elim m s mn h
        have hsz : sizeOf (QNode.filt m s mn) =
            1 + sizeOf m + sizeOf s + sizeOf mn := by
          simp
        rw [hsz] at hk
        have hlist : ∀ (l : List QNode), nodesOK l = true →
            (∀ x ∈ l, sizeOf x < k) → noEmptyBucketsList l = true := by
          intro l
          induction l with
          | nil =>
            intro _ _
            rw [noEmptyBucketsList]
          | cons x xs ihl =>
            intro hok hmem
            rw [nodesOK] at hok
            rw [noEmptyBucketsList]
            simp only [Bool.and_eq_true] at hok ⊢
            refine ⟨ih (sizeOf x) (hmem x (by simp)) x le_rfl hok.1, ?_⟩
            exact ihl hok.2 (fun y hy => hmem y (by simp [hy]))
        have hm : ∀ x ∈ bList m, sizeOf x < k := by
          intro x hx
          have := sizeOf_mem_bucket x m hx
          omega
        have hs : ∀ x ∈ bList s, sizeOf x < k := by
          intro x hx
          have := sizeOf_mem_bucket x s hx
          omega
        have hmn : ∀ x ∈ bList mn, sizeOf x < k := by
          intro x hx
          have := sizeOf_mem_bucket x mn hx
          omega
        rw [noEmptyBuckets]
        simp [h1, h2, h3, hlist _ hb1 hm, hlist _ hb2 hs, hlist _ hb3 hmn]
  exact main (sizeOf n) n le_rfl h

theorem append_eq_singleton_cases {α : Type} (l1 l2 : List α) (x : α)
    (h : l1 ++ l2 = [x]) : l1 = [] ∨ l2 = [] := by
  cases l1 with
  | nil => exact .inl rfl
  | cons a as =>
    right
    simp only [List.cons_append, List.cons.injEq] at h
    exact (List.append_eq_nil.1 h.2).2

theorem singleOf_isSome_orNone (l : List QNode)
    (h : (singleOf (orNone l)).isSome = true) : ∃ x, l = [x] := by
  rcases l with _ | ⟨x, _ | ⟨y, ys⟩⟩ <;> simp [orNone, singleOf] at h ⊢

theorem eq_nil_of_not_truthy_orNone (l : List QNode)
    (h : isTruthy (orNone l) = false) : l = [] := by
  cases l with
  | nil => rfl
  | cons x xs => simp [orNone, isTruthy] at h

/-- The result of an AND/OR merge of two well-formed operands is never a
single-entry single-bucket Filter, so _unwrap_group leaves it unchanged. -/
theorem unwrapGroup_mergeFilters (op : LogOp) (l r : QNode)
    (hl : nodeOK l = true) (hr : nodeOK r = true) :
    unwrapGroup (mergeFilters op l r) = mergeFilters op l r := by
  cases op with
  | and =>
    simp only [mergeFilters, dedupById_id, cleanList_id]
    apply unwrapGroup_filt_self
    · rintro ⟨hsm, -, hmn⟩
      obtain ⟨x, hx⟩ := singleOf_isSome_orNone _ hsm
      have hMN := eq_nil_of_not_truthy_orNone _ hmn
      have hMN1 := (List.append_eq_nil.1 hMN).1
      have hMN2 := (List.append_eq_nil.1 hMN).2
      rcases append_eq_singleton_cases _ _ _ hx with h1 | h1
      · rcases collectConditions_ne_nil l hl with hc | hc
        · exact hc h1
        · exact hc hMN1
      · rcases collectConditions_ne_nil r hr with hc | hc
        · exact hc h1
        · exact hc hMN2
    · rintro ⟨hsm, -, -⟩
      simp at hsm
  | or =>
    simp only [mergeFilters, dedupById_id, cleanList_id]
    apply unwrapGroup_filt_self
    · rintro ⟨hsm, -, -⟩
      simp at hsm
    · rintro ⟨hsm, -, -⟩
      obtain ⟨x, hx⟩ := singleOf_isSome_orNone _ hsm
      rcases append_eq_singleton_cases _ _ _ hx with h1 | h1
      · exact flattenShould_ne_nil l h1
      · exact flattenShould_ne_nil r h1

/-- The final bucket normalization of visit_expression does not change a
merge result: merged buckets are already absent-or-nonempty. -/
theorem finalizeExpr_mergeFilters (op : LogOp) (l r : QNode) :
    finalizeExpr (mergeFilters op l r) = mergeFilters op l r := by
  cases op <;> simp [mergeFilters, finalizeExpr, normBucket_orNone]

theorem visitFactor_plainF (isoOk : String → Bool) (c : Cond) :
    visitFactor isoOk (plainF c) = unwrapGroup (visitCond isoOk c) := by
  rw [plainF, visitFactor_false, visitBody_condB]

theorem visitFactor_groupF (isoOk : String → Bool) (e : Expr) :
    visitFactor isoOk (groupF e) = unwrapGroup (visitExpr isoOk e) := by
  rw [groupF, visitFactor_false, visitBody_group]

theorem condAtom_eq_some (isoOk : String → Bool) (c : Cond) (q : QCond)
    (h : condAtom isoOk c = some q) :
    visitCond isoOk c = .filt (some [.cond q]) none none := by
  unfold condAtom at h
  rcases visitCond_shape isoOk c with ⟨q', hq⟩ | ⟨q', hq⟩ <;> rw [hq] at h ⊢ <;>
    simp at h
  rw [h]

theorem visitFactor_plain_atom (isoOk : String → Bool) (c : Cond) (q : QCond)
    (h : condAtom isoOk c = some q) :
    visitFactor isoOk (plainF c) = .cond q := by
  rw [visitFactor_plainF, condAtom_eq_some isoOk c q h,
    unwrapGroup_must_single (QNode.cond q) none none rfl rfl, unwrapGroup_cond]

theorem bList_eq_nil_of_not_truthy (o : Option (List QNode))
    (h : isTruthy o = false) : bList o = [] := by
  rcases o with _ | (_ | ⟨x, xs⟩) <;> simp [isTruthy] at h ⊢

/-- Unwrapping a single-entry Filter does not change its backend
semantics. -/
theorem evalNode_unwrapGroup (σ : QCond → Bool) (n : QNode) :
    evalNode σ (unwrapGroup n) = evalNode σ n := by
  induction n using unwrapGroup.induct with
  | case1 c => rw [unwrapGroup]
  | case2 m s mn h1 ih =>
    obtain ⟨hsm, hs, hmn⟩ := id h1
    obtain ⟨x, hsome⟩ := Option.isSome_iff_exists.1 hsm
    have hx := singleOf_eq_some m x hsome
    subst hx
    rw [unwrapGroup, dif_pos h1]
    simp only [singleOf, Option.get_some] at ih ⊢
    rw [ih, evalNode]
    simp [evalAllOf, evalNoneOf, bList_eq_nil_of_not_truthy mn hmn, hs]
  | case3 m s mn h1 h2 ih =>
    obtain ⟨hsm, hm, hmn⟩ := id h2
    obtain ⟨y, hsome⟩ := Option.isSome_iff_exists.1 hsm
    have hx := singleOf_eq_some s y hsome
    subst hx
    rw [unwrapGroup, dif_neg h1, dif_pos h2]
    simp only [singleOf, Option.get_some] at ih ⊢
    rw [ih, evalNode]
    simp [evalAllOf, evalNoneOf, evalAnyOf, isTruthy,
      bList_eq_nil_of_not_truthy m hm, bList_eq_nil_of_not_truthy mn hmn]
  | case4 m s mn h1 h2 =>
    rw [unwrapGroup, dif_neg h1, dif_neg h2]

theorem visitExpr_single (isoOk : String → Bool) (f : Factor) :
    visitExpr isoOk (exprOf f) = finalizeExpr (visitFactor isoOk f) := by
  rw [exprOf, visitExpr_def, visitRest_nil]

theorem whereToFilter_single (isoOk : String → Bool) (f : Factor) :
    whereToFilter isoOk (exprOf f) = finalizeExpr (visitFactor isoOk f) := by
  rw [whereToFilter_eq_visitExpr, visitExpr_single]

theorem whereToFilter_plain_must (isoOk : String → Bool) (c : Cond) (q : QCond)
    (h : visitCond isoOk c = .filt (some [.cond q]) none none) :
    whereToFilter isoOk (exprOf (plainF c)) =
      .filt (some [.cond q]) none none := by
  rw [whereToFilter_single, visitFactor_plainF, h,
    unwrapGroup_must_single (QNode.cond q) none none rfl rfl, unwrapGroup_cond]
  rfl

theorem whereToFilter_plain_mustNot (isoOk : String → Bool) (c : Cond)
    (q : QCond) (h : visitCond isoOk c = .filt none none (some [.cond q])) :
    whereToFilter isoOk (exprOf (plainF c)) =
      .filt none none (some [.cond q]) := by
  rw [whereToFilter_single, visitFactor_plainF, h]
  rw [unwrapGroup_filt_self none none (some [QNode.cond q]) (by simp)
    (by simp)]
  rfl

theorem flattenShould_cond (c : QCond) :
    flattenShould (.cond c) = [.cond c] :=
  flattenShould_of_unwrap_cond _ c (unwrapGroup_cond c)

theorem flattenShould_pure_should (l : List QNode) (h2 : 2 ≤ l.length) :
    flattenShould (.filt none (some l) none) = l := by
  have hne : l ≠ [] := by
    intro hnil
    rw [hnil] at h2
    simp at h2
  have hu : unwrapGroup (.filt none (some l) none) = .filt none (some l) none := by
    apply unwrapGroup_filt_self
    · rintro ⟨hsm, -, -⟩
      simp at hsm
    · rintro ⟨hsm, -, -⟩
      rcases l with _ | ⟨x, _ | ⟨y, ys⟩⟩
      · simp at h2
      · simp at h2
      · simp [singleOf] at hsm
  rw [flattenShould_of_unwrap_filt _ none (some l) none hu]
  rw [if_pos]
  · rfl
  · rcases l with _ | ⟨x, xs⟩
    · simp at h2
    · simp [isTruthy]

theorem mergeAnd_acc_cond (acc : QNode) (qs : List QNode) (q : QCond)
    (hacc : collectConditions acc = (qs, [])) :
    mergeFilters .and acc (.cond q) =
      .filt (some (qs ++ [QNode.cond q])) none none := by
  simp only [mergeFilters, dedupById_id, cleanList_id, hacc,
    collectConditions_cond, List.append_nil]
  rw [orNone_ne_nil _ (by simp)]
  rfl

theorem mergeOr_acc_cond (acc : QNode) (ss : List QNode) (q : QCond)
    (hacc : flattenShould acc = ss) :
    mergeFilters .or acc (.cond q) =
      .filt none (some (ss ++ [QNode.cond q])) none := by
  simp only [mergeFilters, dedupById_id, cleanList_id, hacc, flattenShould_cond]
  rw [orNone_ne_nil _ (by simp)]

theorem collect_pure_must (l : List QNode) (hl : l ≠ []) :
    collectConditions (.filt (some l) none none) = (l, []) := by
  rw [collectConditions_filt]
  rcases l with _ | ⟨x, xs⟩
  · exact absurd rfl hl
  · simp [isTruthy, bList]

/-- The merge loop over an AND chain of pure-must conditions accumulates
the condition atoms in order inside must. -/
theorem visitRest_and_atoms (isoOk : String → Bool) :
    ∀ (cs : List Cond) (acc : QNode) (qs : List QNode), qs ≠ [] →
    collectConditions acc = (qs, []) →
    (∀ x ∈ cs, (condAtom isoOk x).isSome = true) →
    visitRest isoOk (cs.map fun ci => (LogOp.and, plainF ci)) acc =
      (match cs with
       | [] => acc
       | _ :: _ =>
         .filt (some (qs ++ cs.filterMap fun ci =>
           (condAtom isoOk ci).map QNode.cond)) none none) := by
  intro cs
  induction cs with
  | nil =>
    intro acc qs hne hacc hall
    simp [visitRest_nil]
  | cons ci rest ih =>
    intro acc qs hne hacc hall
    simp only [List.map_cons]
    rw [visitRest_cons]
    obtain ⟨qi, hqi⟩ := Option.isSome_iff_exists.1 (hall ci (by simp))
    rw [visitFactor_plain_atom isoOk ci qi hqi]
    rw [mergeAnd_acc_cond acc qs qi hacc]
    rw [ih _ _ (by simp) (collect_pure_must (qs ++ [QNode.cond qi]) (by simp))
      (fun x hx => hall x (by simp [hx]))]
    cases rest with
    | nil => simp [hqi]
    | cons r rs => simp [hqi, List.filterMap_cons]

/-- The merge loop over an OR chain of pure-must conditions accumulates
the condition atoms in order inside should. -/
theorem visitRest_or_atoms (isoOk : String → Bool) :
    ∀ (cs : List Cond) (acc : QNode) (ss : List QNode), ss ≠ [] →
    flattenShould acc = ss →
    (∀ x ∈ cs, (condAtom isoOk x).isSome = true) →
    visitRest isoOk (cs.map fun ci => (LogOp.or, plainF ci)) acc =
      (match cs with
       | [] => acc
       | _ :: _ =>
         .filt none (some (ss ++ cs.filterMap fun ci =>
           (condAtom isoOk ci).map QNode.cond)) none) := by
  intro cs
  induction cs with
  | nil =>
    intro acc ss hne hacc hall
    simp [visitRest_nil]
  | cons ci rest ih =>
    intro acc ss hne hacc hall
    simp only [List.map_cons]
    rw [visitRest_cons]
    obtain ⟨qi, hqi⟩ := Option.isSome_iff_exists.1 (hall ci (by simp))
    rw [visitFactor_plain_atom isoOk ci qi hqi]
    rw [mergeOr_acc_cond acc ss qi hacc]
    have hflat : flattenShould (.filt none (some (ss ++ [QNode.cond qi])) none) =
        ss ++ [QNode.cond qi] := by
      apply flattenShould_pure_should
      have := List.length_pos.2 hne
      simp
      omega
    rw [ih _ _ (by simp) hflat (fun x hx => hall x (by simp [hx]))]
    cases rest with
    | nil => simp [hqi]
    | cons r rs => simp [hqi, List.filterMap_cons]

theorem mergeFilters_or_eq (a b : QNode) :
    mergeFilters .or a b =
      .filt none (orNone (flattenShould a ++ flattenShould b)) none := by
  simp only [mergeFilters, dedupById_id, cleanList_id]

theorem unwrapGroup_merge_or (a b : QNode) :
    unwrapGroup (mergeFilters .or a b) = mergeFilters .or a b := by
  rw [mergeFilters_or_eq]
  apply unwrapGroup_filt_self
  · rintro ⟨hsm, -, -⟩
    simp at hsm
  · rintro ⟨hsm, -, -⟩
    obtain ⟨x, hx⟩ := singleOf_isSome_orNone _ hsm
    rcases append_eq_singleton_cases _ _ _ hx with h1 | h1
    · exact flattenShould_ne_nil a h1
    · exact flattenShould_ne_nil b h1

theorem flattenShould_merge_or (a b : QNode) :
    flattenShould (mergeFilters .or a b) =
      flattenShould a ++ flattenShould b := by
  have hna := flattenShould_ne_nil a
  have hnb := flattenShould_ne_nil b
  have h2 : 2 ≤ (flattenShould a ++ flattenShould b).length := by
    have := List.length_pos.2 hna
    have := List.length_pos.2 hnb
    simp
    omega
  rw [mergeFilters_or_eq]
  rw [orNone_ne_nil _ (fun hnil => hna (List.append_eq_nil.1 hnil).1)]
  exact flattenShould_pure_should _ h2

theorem merge_or_assoc (a b c : QNode) :
    mergeFilters .or a (mergeFilters .or b c) =
      mergeFilters .or (mergeFilters .or a b) c := by
  rw [mergeFilters_or_eq a (mergeFilters .or b c),
    mergeFilters_or_eq (mergeFilters .or a b) c,
    flattenShould_merge_or b c, flattenShould_merge_or a b,
    List.append_assoc]

theorem visitFactor_group_pair (isoOk : String → Bool) (op : LogOp)
    (B C : Factor) (hok : unwrapGroup (mergeFilters op (visitFactor isoOk B)
      (visitFactor isoOk C)) = mergeFilters op (visitFactor isoOk B)
      (visitFactor isoOk C)) :
    visitFactor isoOk (groupF (.mk B [(op, C)])) =
      mergeFilters op (visitFactor isoOk B) (visitFactor isoOk C) := by
  rw [visitFactor_groupF, visitExpr_def, visitRest_cons, visitRest_nil,
    finalizeExpr_mergeFilters, hok]

theorem finalizeExpr_cond (q : QCond) :
    finalizeExpr (.cond q) = .filt (some [.cond q]) none none := rfl

theorem finalizeExpr_mustNot_single (x : QNode) :
    finalizeExpr (.filt none none (some [x])) = .filt none none (some [x]) := rfl

theorem finalizeExpr_must_single (x : QNode) :
    finalizeExpr (.filt (some [x]) none none) = .filt (some [x]) none none := rfl

theorem unwrapGroup_mustNot_single (x : QNode) :
    unwrapGroup (.filt none none (some [x])) = .filt none none (some [x]) :=
  unwrapGroup_filt_self none none (some [x]) (by simp) (by simp)

theorem evalNode_must_single (σ : QCond → Bool) (x : QNode) :
    evalNode σ (.filt (some [x]) none none) = evalNode σ x := by
  rw [evalNode]
  simp [evalAllOf, evalNoneOf, isTruthy, bList]

/-- visit_factor over `NOT ( f )`: the grouped factor result is finalized,
unwrapped, and then negated (with double-negation elimination). -/
theorem visitFactor_notF (isoOk : String → Bool) (f : Factor) :
    visitFactor isoOk (notF f) =
      (match unwrapGroup (finalizeExpr (visitFactor isoOk f)) with
       | .filt m s mn =>
         if isTruthy mn && !isTruthy m && !isTruthy s then .filt mn none none
         else .filt none none (some [QNode.filt m s mn])
       | .cond c => .filt none none (some [QNode.cond c])) := by
  rw [notF, visitFactor_true, visitBody_group, visitExpr_def, visitRest_nil]

/- ------------------------------------------------------------------ -/
/- String literal decoding (visit_string / visit_value).               -/
/- ------------------------------------------------------------------ -/

/-- A lexical unit of the content of a single-quoted string literal, per the
grammar's string rule `([^'\\]|\\['\\])*`: a plain character, an escaped
quote, or an escaped backslash. -/
inductive STok where
  | plain (c : Char)
  | escQuote
  | escBackslash
deriving DecidableEq

/-- The source characters of one unit. -/
def renderTok : STok → List Char
  | .plain c => [c]
  | .escQuote => ['\\', '\'']
  | .escBackslash => ['\\', '\\']

/-- The source characters of a literal's content (between the quotes). -/
def render : List STok → List Char
  | [] => []
  | t :: ts => renderTok t ++ render ts

/-- Well-formedness per the string regex: a plain character is neither a
quote nor a backslash. -/
def wfTok : STok → Bool
  | .plain c => decide (c ≠ '\'') && decide (c ≠ '\\')
  | .escQuote => true
  | .escBackslash => true

/-- The decoded character of one unit: `\'` is a quote, `\\` a backslash. -/
def decodeTok : STok → Char
  | .plain c => c
  | .escQuote => '\''
  | .escBackslash => '\\'

/-- The decoding claimed by the spec: exactly the two escape sequences are
decoded and nothing else is altered. -/
def decodeContent (ts : List STok) : List Char := ts.map decodeTok

/-- Python str.replace for a two-character pattern and a single-character
replacement: left-to-right scan, non-overlapping matches. -/
def replace2 (a b r : Char) : List Char → List Char
  | [] => []
  | [x] => [x]
  | x :: y :: rest =>
    if x = a ∧ y = b then r :: replace2 a b r rest
    else x :: replace2 a b r (y :: rest)

/-- visit_string after the outer quotes are stripped:
first all occurrences of backslash-quote become a quote, then all
occurrences of backslash-backslash become a backslash. -/
def pyVisitString (content : List Char) : List Char :=
  replace2 '\\' '\\' '\\' (replace2 '\\' '\'' '\'' content)

/-- Python `val.startswith("'")` on a list of characters. -/
def headIsQuote : List Char → Bool
  | [] => false
  | c :: _ => c = '\''

/-- Python `val.endswith("'")` on a list of characters. -/
def lastIsQuote (l : List Char) : Bool :=
  match l.getLast? with
  | some c => c = '\''
  | none => false

/-- visit_value's string branch: a value that itself starts and ends with a
single quote is stripped (`val[1:-1]`) and the two replacements are applied
again; any other value is returned unchanged. -/
def pyVisitValue (v : List Char) : List Char :=
  if headIsQuote v && lastIsQuote v then pyVisitString ((v.drop 1).dropLast)
  else v

/-- The value a string literal contributes to the compiled filter:
visit_string followed by visit_value's string branch. -/
def endToEndValue (content : List Char) : List Char :=
  pyVisitValue (pyVisitString content)

/-- The intermediate form after the first replacement: escaped quotes
decoded, escaped backslashes still two characters. -/
def renderMidTok : STok → List Char
  | .plain c => [c]
  | .escQuote => ['\'']
  | .escBackslash => ['\\', '\\']

/-- renderMidTok over a unit list. -/
def renderMid : List STok → List Char
  | [] => []
  | t :: ts => renderMidTok t ++ renderMid ts

theorem replace2_cons_ne (a b r c : Char) (l : List Char) (hc : c ≠ a) :
    replace2 a b r (c :: l) = c :: replace2 a b r l := by
  cases l with
  | nil => rfl
  | cons y ys =>
    rw [replace2, if_neg]
    rintro ⟨h1, -⟩
    exact hc h1

theorem replace2_cons_match (a b r : Char) (l : List Char) :
    replace2 a b r (a :: b :: l) = r :: replace2 a b r l := by
  rw [replace2, if_pos ⟨rfl, rfl⟩]

theorem replace2_cons_cons_ne_second (a b r x y : Char) (l : List Char)
    (hy : y ≠ b) :
    replace2 a b r (x :: y :: l) = x :: replace2 a b r (y :: l) := by
  rw [replace2, if_neg]
  rintro ⟨-, h2⟩
  exact hy h2

theorem render_eq_nil (ts : List STok) (h : render ts = []) : ts = [] := by
  cases ts with
  | nil => rfl
  | cons t ts => cases t <;> simp [render, renderTok] at h

theorem render_head_ne_quote (ts : List STok)
    (h : ∀ t ∈ ts, wfTok t = true) (c : Char) (cs : List Char)
    (hr : render ts = c :: cs) : c ≠ '\'' := by
  cases ts with
  | nil => simp [render] at hr
  | cons t ts =>
    cases t with
    | plain a =>
      have hw := h (.plain a) (by simp)
      simp [wfTok] at hw
      simp [render, renderTok] at hr
      rw [← hr.1]
      exact hw.1
    | escQuote =>
      simp [render, renderTok] at hr
      rw [← hr.1]
      decide
    | escBackslash =>
      simp [render, renderTok] at hr
      rw [← hr.1]
      decide

theorem replace2_quote_render (ts : List STok)
    (h : ∀ t ∈ ts, wfTok t = true) :
    replace2 '\\' '\'' '\'' (render ts) = renderMid ts := by
  induction ts with
  | nil => rfl
  | cons t ts ih =>
    have hts : ∀ t' ∈ ts, wfTok t' = true := fun t' ht' => h t' (by simp [ht'])
    cases t with
    | plain a =>
      have hw := h (.plain a) (by simp)
      simp only [wfTok, Bool.and_eq_true, decide_eq_true_eq] at hw
      show replace2 '\\' '\'' '\'' (a :: render ts) = a :: renderMid ts
      rw [replace2_cons_ne _ _ _ _ _ hw.2, ih hts]
    | escQuote =>
      show replace2 '\\' '\'' '\'' ('\\' :: '\'' :: render ts) =
        '\'' :: renderMid ts
      rw [replace2_cons_match, ih hts]
    | escBackslash =>
      show replace2 '\\' '\'' '\'' ('\\' :: '\\' :: render ts) =
        '\\' :: '\\' :: renderMid ts
      rw [replace2_cons_cons_ne_second _ _ _ _ _ _ (by decide)]
      congr 1
      cases hr : render ts with
      | nil =>
        rw [render_eq_nil ts hr]
        rfl
      | cons c cs =>
        rw [replace2_cons_cons_ne_second _ _ _ _ _ _
          (render_head_ne_quote ts hts c cs hr)]
        rw [← hr, ih hts]

theorem replace2_backslash_renderMid (ts : List STok)
    (h : ∀ t ∈ ts, wfTok t = true) :
    replace2 '\\' '\\' '\\' (renderMid ts) = decodeContent ts := by
  induction ts with
  | nil => rfl
  | cons t ts ih =>
    have hts : ∀ t' ∈ ts, wfTok t' = true := fun t' ht' => h t' (by simp [ht'])
    cases t with
    | plain a =>
      have hw := h (.plain a) (by simp)
      simp only [wfTok, Bool.and_eq_true, decide_eq_true_eq] at hw
      show replace2 '\\' '\\' '\\' (a :: renderMid ts) =
        a :: decodeContent ts
      rw [replace2_cons_ne _ _ _ _ _ hw.2, ih hts]
    | escQuote =>
      show replace2 '\\' '\\' '\\' ('\'' :: renderMid ts) =
        '\'' :: decodeContent ts
      rw [replace2_cons_ne _ _ _ _ _ (by decide), ih hts]
    | escBackslash =>
      show replace2 '\\' '\\' '\\' ('\\' :: '\\' :: renderMid ts) =
        '\\' :: decodeContent ts
      rw [replace2_cons_match, ih hts]

/-- visit_string alone decodes every well-formed literal exactly as the spec
describes. -/
theorem pyVisitString_decodes (ts : List STok)
    (h : ∀ t ∈ ts, wfTok t = true) :
    pyVisitString (render ts) = decodeContent ts := by
  unfold pyVisitString
  rw [replace2_quote_render ts h, replace2_backslash_renderMid ts h]

/- ------------------------------------------------------------------ -/
/- Claim theorems.                                                     -/
/- ------------------------------------------------------------------ -/

/-- C1: compiling `f NOT IN (vs)` returns a Filter whose must list contains
exactly one FieldCondition with key f and match = MatchExcept over the
flattened values of vs, with should and must_not absent; in particular
NOT IN is not rewritten as must_not of MatchAny. -/
theorem c1_notIn_matchExcept_in_must (isoOk : String → Bool) (f : String)
    (vs : List PyVal) :
    whereToFilter isoOk (exprOf (plainF (.comp f (.notIn (.list vs))))) =
      .filt (some [.cond (.field f (.matchB (.exceptOf
        (flattenAll (.list vs)))))]) none none := by
  apply whereToFilter_plain_must
  rfl

/-- C2: a conjunction `c1 AND … AND cn` of conditions, each of which
compiles to a single condition atom in must, yields a Filter with exactly
those atoms in must in input order, and its should and must_not buckets
absent. -/
theorem c2_and_chain_must (isoOk : String → Bool) (c : Cond) (cs : List Cond)
    (h : ∀ x ∈ c :: cs, (condAtom isoOk x).isSome = true) :
    whereToFilter isoOk (.mk (plainF c)
        (cs.map fun ci => (LogOp.and, plainF ci))) =
      .filt (some ((c :: cs).filterMap fun ci =>
        (condAtom isoOk ci).map QNode.cond)) none none := by
  obtain ⟨q1, hq1⟩ := Option.isSome_iff_exists.1 (h c (by simp))
  rw [whereToFilter_eq_visitExpr, visitExpr_def]
  rw [visitFactor_plain_atom isoOk c q1 hq1]
  rw [visitRest_and_atoms isoOk cs (.cond q1) [QNode.cond q1] (by simp)
    (by rw [collectConditions_cond]) (fun x hx => h x (by simp [hx]))]
  cases cs with
  | nil => simp [finalizeExpr_cond, List.filterMap_cons, hq1]
  | cons r rs =>
    simp [finalizeExpr, normBucket, List.filterMap_cons, hq1]

/-- Witness for C2: `a = 1 AND b = 2` compiles to both atoms in must. -/
theorem c2_and_chain_must_witness :
    whereToFilter (fun _ => false) (.mk (plainF (.comp "a" (.eq (.int 1))))
        [(LogOp.and, plainF (.comp "b" (.eq (.int 2))))]) =
      .filt (some [.cond (.field "a" (.matchB (.value (.int 1)))),
        .cond (.field "b" (.matchB (.value (.int 2))))]) none none := by
  have h := c2_and_chain_must (fun _ => false) (.comp "a" (.eq (.int 1)))
    [.comp "b" (.eq (.int 2))] (by decide)
  simpa [condAtom, visitCond, handleEquality] using h

/-- C3: a disjunction `c1 OR … OR cn` (n ≥ 2) of such conditions yields
exactly those condition atoms in should in input order and no must or
must_not; moreover pure-OR chains flatten associatively for arbitrary
factors: `A OR (B OR C)`, `(A OR B) OR C` and `A OR B OR C` all compile to
the same Filter. -/
theorem c3_or_chain_should_and_assoc (isoOk : String → Bool)
    (c1 c2 : Cond) (cs : List Cond) (A B C : Factor) :
    ((∀ x ∈ c1 :: c2 :: cs, (condAtom isoOk x).isSome = true) →
      whereToFilter isoOk (.mk (plainF c1)
          ((c2 :: cs).map fun ci => (LogOp.or, plainF ci))) =
        .filt none (some ((c1 :: c2 :: cs).filterMap fun ci =>
          (condAtom isoOk ci).map QNode.cond)) none)
    ∧ whereToFilter isoOk (.mk A [(LogOp.or, groupF (.mk B [(LogOp.or, C)]))]) =
        whereToFilter isoOk (.mk A [(LogOp.or, B), (LogOp.or, C)])
    ∧ whereToFilter isoOk
          (.mk (groupF (.mk A [(LogOp.or, B)])) [(LogOp.or, C)]) =
        whereToFilter isoOk (.mk A [(LogOp.or, B), (LogOp.or, C)]) := by
  refine ⟨fun h => ?_, ?_, ?_⟩
  · obtain ⟨q1, hq1⟩ := Option.isSome_iff_exists.1 (h c1 (by simp))
    rw [whereToFilter_eq_visitExpr, visitExpr_def]
    rw [visitFactor_plain_atom isoOk c1 q1 hq1]
    rw [visitRest_or_atoms isoOk (c2 :: cs) (.cond q1) [QNode.cond q1]
      (by simp) (flattenShould_cond q1) (fun x hx => h x (by simp [hx]))]
    simp [finalizeExpr, normBucket, List.filterMap_cons, hq1]
  · rw [whereToFilter_eq_visitExpr, whereToFilter_eq_visitExpr,
      visitExpr_def, visitExpr_def, visitRest_cons, visitRest_cons,
      visitRest_cons, visitRest_nil, visitRest_nil,
      visitFactor_group_pair isoOk .or B C (unwrapGroup_merge_or _ _),
      merge_or_assoc]
  · rw [whereToFilter_eq_visitExpr, whereToFilter_eq_visitExpr,
      visitExpr_def, visitExpr_def, visitRest_cons, visitRest_cons,
      visitRest_cons, visitRest_nil, visitRest_nil,
      visitFactor_group_pair isoOk .or A B (unwrapGroup_merge_or _ _)]

/-- Witness for C3: `a = 1 OR b = 2` puts both atoms in should, and the
associativity instances hold at concrete factors. -/
theorem c3_or_chain_witness :
    whereToFilter (fun _ => false) (.mk (plainF (.comp "a" (.eq (.int 1))))
        [(LogOp.or, plainF (.comp "b" (.eq (.int 2))))]) =
      .filt none (some [.cond (.field "a" (.matchB (.value (.int 1)))),
        .cond (.field "b" (.matchB (.value (.int 2))))]) none := by
  have h := (c3_or_chain_should_and_assoc (fun _ => false)
    (.comp "a" (.eq (.int 1))) (.comp "b" (.eq (.int 2))) []
    (plainF (.comp "a" (.eq (.int 1)))) (plainF (.comp "a" (.eq (.int 1))))
    (plainF (.comp "a" (.eq (.int 1))))).1 (by decide)
  simpa [condAtom, visitCond, handleEquality] using h

/-- C4: AND and OR have equal precedence and expressions fold left-to-right:
`A op1 B op2 C` compiles exactly as `(A op1 B) op2 C` for every pair of
connectives, in particular `A OR B AND C` groups as `(A OR B) AND C`. -/
theorem c4_left_fold_equal_precedence (isoOk : String → Bool)
    (A B C : Factor) (op1 op2 : LogOp) :
    whereToFilter isoOk (.mk A [(op1, B), (op2, C)]) =
      whereToFilter isoOk (.mk (groupF (.mk A [(op1, B)])) [(op2, C)]) := by
  rw [whereToFilter_eq_visitExpr, whereToFilter_eq_visitExpr,
    visitExpr_def, visitExpr_def, visitRest_cons, visitRest_cons,
    visitRest_nil, visitRest_cons, visitRest_nil,
    visitFactor_group_pair isoOk op1 A B
      (unwrapGroup_mergeFilters op1 _ _ (visitFactor_ok isoOk A)
        (visitFactor_ok isoOk B))]

/-- C5: negating a term that is a Filter with only must_not yields
Filter(must = that must_not list); consequently a double negation is
eliminated and `NOT (NOT E)` is semantically equivalent to `E` whenever one
negation of E resolves to a pure-must_not filter. -/
theorem c5_double_negation_eliminated (isoOk : String → Bool) (E : Factor)
    (h : isPureMustNot (visitFactor isoOk (notF E)) = true) (σ : QCond → Bool) :
    evalNode σ (whereToFilter isoOk (exprOf (notF (notF E)))) =
      evalNode σ (whereToFilter isoOk (exprOf E)) := by
  have ht := visitFactor_ok isoOk E
  rw [whereToFilter_single, whereToFilter_single]
  cases htv : visitFactor isoOk E with
  | cond q =>
    have h1 : visitFactor isoOk (notF E) =
        .filt none none (some [QNode.cond q]) := by
      rw [visitFactor_notF, htv, finalizeExpr_cond,
        unwrapGroup_must_single (QNode.cond q) none none rfl rfl,
        unwrapGroup_cond]
    have h2 : visitFactor isoOk (notF (notF E)) =
        .filt (some [QNode.cond q]) none none := by
      rw [visitFactor_notF, h1, finalizeExpr_mustNot_single,
        unwrapGroup_mustNot_single]
      simp [isTruthy]
    rw [h2, finalizeExpr_must_single, finalizeExpr_cond]
  | filt m s mn =>
    have ht' : nodeOK (QNode.filt m s mn) = true := by
      rw [← htv]
      exact ht
    have hfin : finalizeExpr (.filt m s mn) = .filt m s mn :=
      finalizeExpr_eq_of_ok m s mn ht'
    have hu_eval : evalNode σ (unwrapGroup (.filt m s mn)) =
        evalNode σ (.filt m s mn) := evalNode_unwrapGroup σ _
    cases hu : unwrapGroup (.filt m s mn) with
    | cond c =>
      have h1 : visitFactor isoOk (notF E) =
          .filt none none (some [QNode.cond c]) := by
        rw [visitFactor_notF, htv, hfin, hu]
      have h2 : visitFactor isoOk (notF (notF E)) =
          .filt (some [QNode.cond c]) none none := by
        rw [visitFactor_notF, h1, finalizeExpr_mustNot_single,
          unwrapGroup_mustNot_single]
        simp [isTruthy]
      rw [h2, finalizeExpr_must_single, hfin, evalNode_must_single]
      rw [hu] at hu_eval
      exact hu_eval
    | filt um us umn =>
      by_cases hpure : (isTruthy umn && !isTruthy um && !isTruthy us) = true
      · exfalso
        have h1 : visitFactor isoOk (notF E) = .filt umn none none := by
          rw [visitFactor_notF, htv, hfin, hu]
          simp only []
          rw [if_pos hpure]
        rw [h1] at h
        simp [isPureMustNot, isTruthy] at h
      · have h1 : visitFactor isoOk (notF E) =
            .filt none none (some [QNode.filt um us umn]) := by
          rw [visitFactor_notF, htv, hfin, hu]
          simp only []
          rw [if_neg hpure]
        have h2 : visitFactor isoOk (notF (notF E)) =
            .filt (some [QNode.filt um us umn]) none none := by
          rw [visitFactor_notF, h1, finalizeExpr_mustNot_single,
            unwrapGroup_mustNot_single]
          simp [isTruthy]
        rw [h2, finalizeExpr_must_single, hfin, evalNode_must_single]
        rw [hu] at hu_eval
        exact hu_eval

/-- Witness for C5 at `E := (x = 1)` with a concrete assignment. -/
theorem c5_double_negation_witness :
    isPureMustNot (visitFactor (fun _ => false)
        (notF (plainF (.comp "x" (.eq (.int 1)))))) = true ∧
    evalNode (fun _ => true) (whereToFilter (fun _ => false)
        (exprOf (notF (notF (plainF (.comp "x" (.eq (.int 1)))))))) =
      evalNode (fun _ => true) (whereToFilter (fun _ => false)
        (exprOf (plainF (.comp "x" (.eq (.int 1)))))) := by
  have hp : isPureMustNot (visitFactor (fun _ => false)
      (notF (plainF (.comp "x" (.eq (.int 1)))))) = true := by
    simp [visitFactor_notF, visitFactor_plainF, visitCond, handleEquality,
      finalizeExpr, normBucket, cleanList, unwrapGroup, singleOf, isTruthy,
      isPureMustNot]
  exact ⟨hp, c5_double_negation_eliminated (fun _ => false) _ hp _⟩

/-- C7: the compiled result is always a Filter, and in the whole result tree
no must/should/must_not bucket is an empty list: buckets are absent or
non-empty. -/
theorem c7_filter_shape_no_empty_buckets (isoOk : String → Bool) (e : Expr) :
    isFilt (whereToFilter isoOk e) = true ∧
    noEmptyBuckets (whereToFilter isoOk e) = true := by
  rw [whereToFilter_eq_visitExpr]
  exact ⟨isFilt_visitExpr isoOk e,
    noEmptyBuckets_of_nodeOK _ (visitExpr_ok isoOk e)⟩

/-- C9: `f IN ()` compiles to MatchAny with an empty value list and
`f NOT IN ()` to MatchExcept with an empty value list, and the handler's
missing-value check does not fire (no error is raised). -/
theorem c9_in_empty_list (isoOk : String → Bool) (f : String) :
    whereToFilter isoOk (exprOf (plainF (.comp f (.inOp (.list []))))) =
      .filt (some [.cond (.field f (.matchB (.anyOf [])))]) none none
    ∧ whereToFilter isoOk (exprOf (plainF (.comp f (.notIn (.list []))))) =
      .filt (some [.cond (.field f (.matchB (.exceptOf [])))]) none none
    ∧ handleInChecked f (some (.list [])) false =
      .ok (.filt (some [.cond (.field f (.matchB (.anyOf [])))]) none none)
    ∧ handleInChecked f (some (.list [])) true =
      .ok (.filt (some [.cond (.field f (.matchB (.exceptOf [])))]) none
        none) := by
  refine ⟨?_, ?_, ?_, ?_⟩
  · apply whereToFilter_plain_must
    show handleIn f (.list []) false = _
    simp [handleIn, flattenAll]
  · apply whereToFilter_plain_must
    show handleIn f (.list []) true = _
    simp [handleIn, flattenAll]
  · show Except.ok (handleIn f (.list []) false) = _
    simp [handleIn, flattenAll]
  · show Except.ok (handleIn f (.list []) true) = _
    simp [handleIn, flattenAll]

/-- C6: for `f op v` (op among >, >=, <, <=) and `f BETWEEN v1 AND v2` the
emitted condition is a FieldDatetimeRange exactly when every bound literal
is a string accepted by the ISO-8601 parse after the Z rewrite, and
otherwise a FieldRange carrying the original value; the single bound (or
`gte = v1, lte = v2` for BETWEEN) is the one matching the operator. -/
theorem c6_datetime_range_detection (isoOk : String → Bool) (f : String)
    (rop : RangeOp) (v v1 v2 : PyVal) :
    (whereToFilter isoOk (exprOf (plainF (.comp f (.rcmp rop v)))) =
      .filt (some [.cond (.field f ((if isDtStr isoOk v then
        FieldBody.dtRangeB else FieldBody.rangeB) (rangeKwargs rop v)))])
        none none)
    ∧ (whereToFilter isoOk (exprOf (plainF (.comp f (.between v1 v2)))) =
      .filt (some [.cond (.field f ((if isDtStr isoOk v1 && isDtStr isoOk v2
        then FieldBody.dtRangeB else FieldBody.rangeB)
        (⟨none, some v1, none, some v2⟩ : QRange)))]) none none)
    ∧ ((∃ r, whereToFilter isoOk (exprOf (plainF (.comp f (.rcmp rop v)))) =
        .filt (some [.cond (.field f (.dtRangeB r))]) none none) ↔
      isDtStr isoOk v = true)
    ∧ ((∃ r, whereToFilter isoOk (exprOf (plainF (.comp f
          (.between v1 v2)))) =
        .filt (some [.cond (.field f (.dtRangeB r))]) none none) ↔
      (isDtStr isoOk v1 && isDtStr isoOk v2) = true) := by
  have hA : whereToFilter isoOk (exprOf (plainF (.comp f (.rcmp rop v)))) =
      .filt (some [.cond (.field f ((if isDtStr isoOk v then
        FieldBody.dtRangeB else FieldBody.rangeB) (rangeKwargs rop v)))])
        none none := by
    apply whereToFilter_plain_must
    show handleRange isoOk f rop v = _
    cases v with
    | str s =>
      simp only [handleRange, isDtStr]
      by_cases hs : isoOk (replaceZ s) = true
      · rw [if_pos hs, if_pos hs]
      · rw [if_neg hs, if_neg hs]
    | int n => rfl
    | float r => rfl
    | bool b => rfl
    | list xs => rfl
  have hB : whereToFilter isoOk (exprOf (plainF (.comp f
      (.between v1 v2)))) =
      .filt (some [.cond (.field f ((if isDtStr isoOk v1 && isDtStr isoOk v2
        then FieldBody.dtRangeB else FieldBody.rangeB)
        (⟨none, some v1, none, some v2⟩ : QRange)))]) none none := by
    apply whereToFilter_plain_must
    show handleBetween isoOk f v1 v2 false = _
    cases v1 <;> cases v2 <;> simp only [handleBetween, isDtStr] <;>
      first
        | rfl
        | (split <;> rename_i hsplit <;> simp_all)
  refine ⟨hA, hB, ?_, ?_⟩
  · constructor
    · rintro ⟨r, hr⟩
      by_contra hdt
      simp only [Bool.not_eq_true] at hdt
      rw [hA] at hr
      rw [hdt] at hr
      simp at hr
    · intro hdt
      exact ⟨rangeKwargs rop v, by rw [hA, if_pos hdt]⟩
  · constructor
    · rintro ⟨r, hr⟩
      by_contra hdt
      simp only [Bool.not_eq_true] at hdt
      rw [hB] at hr
      rw [hdt] at hr
      simp at hr
    · intro hdt
      exact ⟨⟨none, some v1, none, some v2⟩, by rw [hB, if_pos hdt]⟩

/-- Witness for C6: with an accepting oracle a string bound emits a
FieldDatetimeRange. -/
theorem c6_datetime_range_witness :
    isDtStr (fun _ => true) (.str "2023-01-01T00:00:00") = true ∧
    (∃ r, whereToFilter (fun _ => true) (exprOf (plainF (.comp "a"
        (.rcmp .gt (.str "2023-01-01T00:00:00"))))) =
      .filt (some [.cond (.field "a" (.dtRangeB r))]) none none) := by
  have hd : isDtStr (fun _ => true) (.str "2023-01-01T00:00:00") = true := rfl
  exact ⟨hd, ((c6_datetime_range_detection (fun _ => true) "a" .gt
    (.str "2023-01-01T00:00:00") (.int 0) (.int 0)).2.2.1).mpr hd⟩

/-- C8: `id` conditions: `IN` yields HasId over the flattened value
sequence in must and `NOT IN` wraps the same HasId in must_not, for every
operand including parenthesized lists; for a scalar operand, `=` yields
HasId with the single-element list [v] in must and `!=`/`<>` wrap the same
HasId in must_not; values keep their parsed type, in particular a quoted
value stays a string. -/
theorem c8_has_id_mapping (isoOk : String → Bool) (v : PyVal) (s : String) :
    whereToFilter isoOk (exprOf (plainF (.hasId .inOp v))) =
      .filt (some [.cond (.hasId (flattenAll v))]) none none
    ∧ whereToFilter isoOk (exprOf (plainF (.hasId .notIn v))) =
      .filt none none (some [.cond (.hasId (flattenAll v))])
    ∧ ((∀ xs, v ≠ PyVal.list xs) →
        whereToFilter isoOk (exprOf (plainF (.hasId .eq v))) =
          .filt (some [.cond (.hasId [v])]) none none
        ∧ whereToFilter isoOk (exprOf (plainF (.hasId .neq v))) =
          .filt none none (some [.cond (.hasId [v])]))
    ∧ whereToFilter isoOk (exprOf (plainF (.hasId .eq (.str s)))) =
      .filt (some [.cond (.hasId [.str s])]) none none := by
  refine ⟨?_, ?_, fun h => ?_, ?_⟩
  · apply whereToFilter_plain_must
    rfl
  · apply whereToFilter_plain_mustNot
    rfl
  · have hids : (match v with | PyVal.list xs => xs | v => [v]) = [v] := by
      cases v <;> first | rfl | exact absurd rfl (h _)
    refine ⟨?_, ?_⟩
    · apply whereToFilter_plain_must
      show visitHasId .eq v = _
      simp only [visitHasId, hids]
    · apply whereToFilter_plain_mustNot
      show visitHasId .neq v = _
      simp only [visitHasId, hids]
  · apply whereToFilter_plain_must
    rfl

/-- Witness for C8 at `id IN (1, 2, 3)`, `id = 5` and `id = 'u'`. -/
theorem c8_has_id_witness :
    whereToFilter (fun _ => false)
        (exprOf (plainF (.hasId .inOp
          (.list [.int 1, .int 2, .int 3])))) =
      .filt (some [.cond (.hasId [.int 1, .int 2, .int 3])]) none none
    ∧ whereToFilter (fun _ => false)
        (exprOf (plainF (.hasId .eq (.int 5)))) =
      .filt (some [.cond (.hasId [.int 5])]) none none
    ∧ whereToFilter (fun _ => false)
        (exprOf (plainF (.hasId .eq (.str "u")))) =
      .filt (some [.cond (.hasId [.str "u"])]) none none := by
  have hin := (c8_has_id_mapping (fun _ => false)
    (.list [.int 1, .int 2, .int 3]) "u").1
  have heq := ((c8_has_id_mapping (fun _ => false) (.int 5) "u").2.2.1
    (fun xs hx => PyVal.noConfusion hx)).1
  have hstr := (c8_has_id_mapping (fun _ => false) (.int 5) "u").2.2.2
  refine ⟨?_, heq, hstr⟩
  rw [hin]
  simp [flattenAll]

/-- C10 counterexample: for the well-formed literal with content `\'`
(the four-character literal quote backslash quote quote), the compiled
value is the empty string, not the single quote the claim demands:
visit_value strips the decoded result a second time. -/
theorem c10_string_decoding_counterexample :
    (∀ t ∈ [STok.escQuote], wfTok t = true) ∧
    endToEndValue (render [STok.escQuote]) ≠
      decodeContent [STok.escQuote] := by
  decide

/-- C10 as amended: visit_string decodes every well-formed literal exactly
as claimed (quotes stripped, exactly the two escape sequences decoded); the
value used by the compiler additionally re-strips when the decoded content
itself both starts and ends with a single quote, and equals the claimed
decoding whenever that is not the case. -/
theorem c10_string_decoding_amended (ts : List STok)
    (h : ∀ t ∈ ts, wfTok t = true) :
    pyVisitString (render ts) = decodeContent ts ∧
    ((headIsQuote (decodeContent ts) && lastIsQuote (decodeContent ts)) =
        false →
      endToEndValue (render ts) = decodeContent ts) := by
  have hmain := pyVisitString_decodes ts h
  refine ⟨hmain, fun hq => ?_⟩
  have hneg : ¬((headIsQuote (decodeContent ts) &&
      lastIsQuote (decodeContent ts)) = true) := by
    rw [hq]
    simp
  unfold endToEndValue pyVisitValue
  rw [hmain, if_neg hneg]

/-- Witness for C10 at the literal content `a\\`. -/
theorem c10_string_decoding_witness :
    pyVisitString (render [STok.plain 'a', STok.escBackslash]) =
      decodeContent [STok.plain 'a', STok.escBackslash] ∧
    endToEndValue (render [STok.plain 'a', STok.escBackslash]) =
      decodeContent [STok.plain 'a', STok.escBackslash] :=
  ⟨(c10_string_decoding_amended [STok.plain 'a', STok.escBackslash]
      (by decide)).1,
    (c10_string_decoding_amended [STok.plain 'a', STok.escBackslash]
      (by decide)).2 (by decide)⟩

end QdrantVSQL
